import Mathlib

/-!
Shallow embedding of `portofino-react-admin` (src/src/index.ts), a react-admin
data/auth provider for the Portofino 5 REST API.  JavaScript values are embedded
as the inductive `JsValue`; JS objects become association lists in insertion
order; promise rejections and thrown exceptions become `Except` errors.
Machine-level concerns (actual network I/O, `localStorage` persistence) are
modelled as explicit state and oracle functions passed in as parameters.
-/

namespace Portofino

/-- A JavaScript value as it occurs in this library's data path.  `vDate n` is a
`Date` object holding epoch-offset `n` in milliseconds (`new Date(n)` for a
number `n`); `vDateP v` is a `Date` built from a non-numeric argument (string
parsing and exotic coercions are kept symbolic, the library only builds dates
from numeric epoch values); `vTimeP v` is the symbolic `getTime()` of such a
date.  Numbers are embedded as `Int` (all values the library handles — epoch
milliseconds, counts, ids — are integral). -/
inductive JsValue where
  | vUndefined : JsValue
  | vNull : JsValue
  | vBool : Bool → JsValue
  | vNum : Int → JsValue
  | vStr : String → JsValue
  | vDate : Int → JsValue
  | vDateP : JsValue → JsValue
  | vTimeP : JsValue → JsValue
  | vArr : List JsValue → JsValue
  | vObj : List (String × JsValue) → JsValue
  deriving Repr

/-- A JS object: own enumerable properties in insertion order. -/
abbrev JsObj := List (String × JsValue)

/-- JS truthiness (`if (x)`).  `NaN` does not arise in the integer model. -/
def truthy : JsValue → Bool
  | .vUndefined => false
  | .vNull => false
  | .vBool b => b
  | .vNum n => n != 0
  | .vStr s => s ≠ ""
  | _ => true

/-- A value is `null` or `undefined`: member access on it throws a `TypeError`. -/
def nullish : JsValue → Bool
  | .vUndefined => true
  | .vNull => true
  | _ => false

/-- Property read `o[k]` on an object literal: first own property named `k`,
`undefined` when absent. -/
def objGet (o : JsObj) (k : String) : JsValue :=
  match o.find? (fun e => e.1 == k) with
  | some e => e.2
  | none => .vUndefined

/-- Property write `o[k] = v`: replaces the value in place when the key exists
(JS objects have unique keys, so mapping every matching entry agrees with JS),
otherwise appends the property at the end in insertion order. -/
def objSet (o : JsObj) (k : String) (v : JsValue) : JsObj :=
  if o.any (fun e => e.1 == k) then
    o.map (fun e => if e.1 == k then (k, v) else e)
  else
    o ++ [(k, v)]

/-- `delete o[k]`. -/
def objDelete (o : JsObj) (k : String) : JsObj :=
  o.filter (fun e => e.1 != k)

/-- Runtime errors surfacing from the embedded JS code. -/
inductive JsError where
  | typeError : JsError
  deriving Repr, DecidableEq

/-- `v.hasOwnProperty("value")`: throws a `TypeError` on `null`/`undefined`;
`true` exactly for object literals with an own `value` key (primitives are
boxed to wrappers without own properties; dates and arrays have none either). -/
def hasValueProp : JsValue → Except JsError Bool
  | .vUndefined => .error .typeError
  | .vNull => .error .typeError
  | .vObj fields => .ok (fields.any (fun e => e.1 == "value"))
  | _ => .ok false

/-- The inner `v.value` of an envelope object (callers establish the key exists). -/
def getValueProp : JsValue → JsValue
  | .vObj fields => objGet fields "value"
  | _ => .vUndefined

/-- `new Date(x)` for the argument shapes the codec can meet; never throws.
Non-numeric sources are kept symbolic via `vDateP`. -/
def newDate : JsValue → JsValue
  | .vNum n => .vDate n
  | .vDate n => .vDate n
  | .vNull => .vDate 0
  | .vBool b => .vDate (if b then 1 else 0)
  | v => .vDateP v

/-- `v.getTime()`: defined on `Date` objects only, otherwise a `TypeError`. -/
def getTime : JsValue → Except JsError JsValue
  | .vDate n => .ok (.vNum n)
  | .vDateP v => .ok (.vTimeP v)
  | _ => .error .typeError

/-- Resource metadata, from `GET /<resource>/:classAccessor` (interface
`Property` of the source). -/
structure Property where
  name : String
  type : String
  deriving Repr, DecidableEq

/-- Interface `ClassAccessor` of the source. -/
structure ClassAccessor where
  properties : List Property
  deriving Repr, DecidableEq

/-- `this.classAccessor.properties.find(prop => prop.name == p)`. -/
def findProp (ca : ClassAccessor) (p : String) : Option Property :=
  ca.properties.find? (fun prop => prop.name == p)

/-- The three backend type tags treated as date/timestamp kinds. -/
def isDateType (t : String) : Bool :=
  t == "java.util.Date" || t == "java.sql.Date" || t == "java.sql.Timestamp"

/-- Body of the `for (const p in result)` loop of `CrudResource.toPlainJson`
for one property `p` with current value `v`: when the raw value is a `{value}`
envelope, unwrap it and, when the metadata types `p` as a date kind, convert
via `new Date(...)`.  The `hasOwnProperty` probe throws on `null`/`undefined`. -/
def toPlainField (ca : ClassAccessor) (p : String) (v : JsValue) :
    Except JsError JsValue := do
  let hasVal ← hasValueProp v
  if hasVal then
    let inner := getValueProp v
    match findProp ca p with
    | some property =>
        if isDateType property.type then pure (newDate inner) else pure inner
    | none => pure inner
  else
    pure v

/-- The `for (const p in ...)` loop shared by `toPlainJson` and `forUpdate`:
each own property is rewritten in place, in insertion order; a throw from the
body aborts the loop and propagates.  In-place value updates never change the
key sequence, so the loop is a structural traversal of the property list. -/
def mapFieldsM (f : String → JsValue → Except JsError JsValue) :
    JsObj → Except JsError JsObj
  | [] => .ok []
  | (p, v) :: rest => do
      let v2 ← f p v
      let tail ← mapFieldsM f rest
      pure ((p, v2) :: tail)

/-- `CrudResource.toPlainJson`: copies the record, promotes `__rowKey` to `id`
when `id` is falsy, removes `__rowKey`, then rewrites each field in insertion
order through `toPlainField`, stopping at the first thrown `TypeError`. -/
def toPlainJson (ca : ClassAccessor) (obj : JsObj) : Except JsError JsObj :=
  let r1 := if truthy (objGet obj "id") then obj
            else objSet obj "id" (objGet obj "__rowKey")
  let r2 := objDelete r1 "__rowKey"
  mapFieldsM (toPlainField ca) r2

/-- Body of the `for (const p in data)` loop of `CrudResource.forUpdate` for one
property: when metadata knows `p`, the value is truthy, and the type is a date
kind, encode the `Date` back to epoch milliseconds via `getTime()`. -/
def forUpdateField (ca : ClassAccessor) (p : String) (v : JsValue) :
    Except JsError JsValue :=
  match findProp ca p with
  | some property =>
      if truthy v then
        if isDateType property.type then getTime v else .ok v
      else .ok v
  | none => .ok v

/-- `CrudResource.forUpdate`: copies the payload and encodes each date-typed
truthy field for the wire. -/
def forUpdate (ca : ClassAccessor) (data : JsObj) : Except JsError JsObj :=
  mapFieldsM (forUpdateField ca) data

/-! ## HTTP layer and CRUD response handling -/

/-- An error rejected by the underlying `fetchJson` transport (an `HttpError`
with a `status` and a `message`; a backend message absent from the response is
the empty string). -/
structure HttpE where
  status : Int
  message : String
  deriving Repr, DecidableEq

/-- A successful transport response: `{ status, headers, body, json }`, with
the headers abstracted to the one header the code inspects
(`X-Portofino-API-Version`, present on all Portofino 5.2+ responses). -/
structure HttpResp where
  status : Int
  body : String
  json : JsValue
  hasVersionHeader : Bool
  deriving Repr

/-- JS strict equality `===` as used by `Array.prototype.indexOf` here: value
equality on primitives, reference equality on objects/arrays/dates.  The arrays
compared against come fresh out of `JSON` parsing, so an object element is
never reference-equal to a caller-supplied id; `===` on distinct shapes is
`false`. -/
def jsStrictEq : JsValue → JsValue → Bool
  | .vNum a, .vNum b => a == b
  | .vStr a, .vStr b => a == b
  | .vBool a, .vBool b => a == b
  | .vNull, .vNull => true
  | .vUndefined, .vUndefined => true
  | _, _ => false

/-- A promise rejection inside a CRUD operation: a transport `HttpError`, a
bare `Promise.reject()` (rejection value `undefined`), or a thrown `TypeError`. -/
inductive Rejection where
  | httpE : HttpE → Rejection
  | undef : Rejection
  | typeErr : Rejection
  deriving Repr, DecidableEq

/-- What `delete`/`deleteMany` ultimately reject with, after their `catch`
handler: a distinct constraint-violation `HttpError` built for status 409, a
passed-through transport error, or a `TypeError`. -/
inductive DelErr where
  | constraint : String → Int → DelErr
  | httpE : HttpE → DelErr
  | typeErr : DelErr
  deriving Repr, DecidableEq

/-- The shared `catch` handler of `delete` and `deleteMany`:
`if (e.status == 409) reject(new HttpError(e.message || default, e.status))
else reject(e)`.  Reading `.status` of a bare `reject()`'s `undefined` throws a
`TypeError`; a `TypeError` object's `.status` is `undefined`, so it passes
through. -/
def deleteCatch : Rejection → DelErr
  | .undef => .typeErr
  | .typeErr => .typeErr
  | .httpE e =>
      if e.status = 409 then
        .constraint
          (if e.message = "" then "Could not delete object, constraint violated"
           else e.message) e.status
      else .httpE e

/-- `json[0]`: first element of an array (`undefined` when empty), the `"0"`
property of an object, the first character of a string; throws on
`null`/`undefined`; `undefined` on other primitives. -/
def jsIndex0 : JsValue → Except Rejection JsValue
  | .vArr xs => .ok (xs.headD .vUndefined)
  | .vObj fs => .ok (objGet fs "0")
  | .vStr s =>
      .ok (match s.data with
           | c :: _ => .vStr (String.mk [c])
           | [] => .vUndefined)
  | .vNull => .error .typeErr
  | .vUndefined => .error .typeErr
  | _ => .ok .vUndefined

/-- The client-side session persisted in `localStorage`: the `token` and `user`
entries (`none` = key absent). -/
structure Store where
  token : Option String
  user : Option String
  deriving Repr, DecidableEq

/-- `CrudResource.delete`, from the transport's settled result onward (the
request itself goes through the token-aware client, modelled separately).  A
numeric body is the legacy (< 5.2) protocol: `1` means the requested id was
deleted, any other count is a bare `Promise.reject()`; otherwise the body is
the array of deleted ids and the result id is `json[0]`.  The `catch` handler
translates 409 into a constraint-violation error.  The method never touches
`localStorage`, so the store passes through unchanged. -/
def deleteM (store : Store) (idv : JsValue) (netResult : Except HttpE HttpResp) :
    Store × Except DelErr JsValue :=
  (store,
   match netResult with
   | .error e => .error (deleteCatch (.httpE e))
   | .ok resp =>
       match resp.json with
       | .vNum n =>
           if n = 1 then .ok idv else .error (deleteCatch .undef)
       | j =>
           match jsIndex0 j with
           | .ok v => .ok v
           | .error r => .error (deleteCatch r))

/-- `CrudResource.deleteMany`, from the transport's settled result onward.  A
numeric body (legacy count) reports the entire requested id list as deleted;
any other body is reported as-is (Portofino 5.2+ sends the array of deleted
ids).  Same 409 translation as `delete`; the store passes through unchanged. -/
def deleteManyM (store : Store) (ids : List JsValue)
    (netResult : Except HttpE HttpResp) : Store × Except DelErr JsValue :=
  (store,
   match netResult with
   | .error e => .error (deleteCatch (.httpE e))
   | .ok resp =>
       match resp.json with
       | .vNum _ => .ok (.vArr ids)
       | j => .ok j)

/-- `json.indexOf(id) == -1` for the legacy `updateMany` body: membership test
under `===` on an array; calling `indexOf` on a non-array legacy body fails
(the delete/update protocol only ever sends arrays there). -/
def jsNotInBody (json : JsValue) (idv : JsValue) : Except JsError Bool :=
  match json with
  | .vArr xs => .ok (!(xs.any (fun b => jsStrictEq b idv)))
  | _ => .error .typeError

/-- `params.ids.filter(id => json.indexOf(id) == -1)`: `Array.prototype.filter`
evaluates the predicate left to right, so a throwing `indexOf` aborts at the
first id and an empty id list never calls it. -/
def filterNotUpdated (json : JsValue) : List JsValue → Except JsError (List JsValue)
  | [] => .ok []
  | idv :: rest => do
      let keep ← jsNotInBody json idv
      let tail ← filterNotUpdated json rest
      pure (if keep then idv :: tail else tail)

/-- Errors out of `updateMany`: a synchronous throw from `forUpdate` or a
transport rejection. -/
inductive UErr where
  | js : JsError → UErr
  | httpE : HttpE → UErr
  deriving Repr, DecidableEq

/-- `CrudResource.updateMany`: encode the payload with `forUpdate`, send, then
branch on the response's version-marker header.  Portofino 5.2+ marks every
response with `X-Portofino-API-Version` and the body is the result directly;
a legacy body is the list of ids that were *not* updated, inverted against the
requested ids. -/
def updateManyM (ca : ClassAccessor) (ids : List JsValue) (data : JsObj)
    (netResult : Except HttpE HttpResp) : Except UErr JsValue :=
  match forUpdate ca data with
  | .error e => .error (.js e)
  | .ok _ =>
      match netResult with
      | .error e => .error (.httpE e)
      | .ok resp =>
          if resp.hasVersionHeader then .ok resp.json
          else
            match filterNotUpdated resp.json ids with
            | .ok kept => .ok (.vArr kept)
            | .error e => .error (.js e)

/-! ## getMany -/

/-- The recursive `load` of `CrudResource.getMany`, over the suffix of ids
still to fetch, parameterised by the per-id fetch (`self.getOne`).  Returns the
ids actually requested over the network, in order, alongside the result:
`load(i)` fetches `ids[i]` and, unless it is the last index, chains
`load(i + 1)` on success only — a failed fetch stops the chain and rejects the
whole operation. -/
def loadMany (fetch : JsValue → Except HttpE JsValue) :
    List JsValue → List JsValue × Except HttpE (List JsValue)
  | [] => ([], .ok [])
  | idv :: rest =>
      match rest with
      | [] =>
          ([idv],
           match fetch idv with
           | .ok r => .ok [r]
           | .error e => .error e)
      | _ :: _ =>
          match fetch idv with
          | .error e => ([idv], .error e)
          | .ok r =>
              let (trace, res) := loadMany fetch rest
              (idv :: trace,
               match res with
               | .ok rs => .ok (r :: rs)
               | .error e => .error e)

/-- `CrudResource.getMany`: an empty id list resolves to `{data: []}` at once
with no network call; otherwise `load(0)` drives one `getOne` per id
sequentially. -/
def getManyM (fetch : JsValue → Except HttpE JsValue) (ids : List JsValue) :
    List JsValue × Except HttpE (List JsValue) :=
  if ids.length > 0 then loadMany fetch ids else ([], .ok [])

/-! ## Provider facade: lazy resource discovery and caching -/

/-- The provider's `resources` cache: resource name → the `CrudResource`
constructed from its discovered metadata (a `CrudResource` is determined by the
`ClassAccessor` it was built around; URL, client and API version are fixed per
provider). -/
structure ProviderState where
  resources : List (String × ClassAccessor)
  deriving Repr

/-- `invokeDataProvider(resource, method, params)`: on a cache miss, issue the
metadata-discovery call `GET <apiUrl>/<resource>/:classAccessor` (the trace
records the resource name of each such call), construct a `CrudResource` from
the response and cache it, then invoke the method on it; on a hit, reuse the
cached client with no discovery call.  The returned `Bool` is whether the
operation proceeded to the method (a failed discovery rejects and caches
nothing).  The method call itself is independent of the caching logic and is
left to the per-operation models above. -/
def invokeDP (discover : String → Except HttpE ClassAccessor)
    (st : ProviderState) (resource : String) :
    ProviderState × List String × Bool :=
  match st.resources.find? (fun e => e.1 == resource) with
  | some _ => (st, [], true)
  | none =>
      match discover resource with
      | .ok ca => (⟨st.resources ++ [(resource, ca)]⟩, [resource], true)
      | .error _ => (st, [resource], false)

/-- A sequence of data-provider operations (each identified by the resource it
targets; which of the nine methods runs does not affect discovery), threaded
through `invokeDP`, concatenating the discovery-call traces. -/
def runOps (discover : String → Except HttpE ClassAccessor)
    (st : ProviderState) : List String → ProviderState × List String
  | [] => (st, [])
  | r :: rest =>
      let (st2, tr, _) := invokeDP discover st r
      let (st3, trs) := runOps discover st2 rest
      (st3, tr ++ trs)

/-! ## Token-aware httpClient -/

/-- The `user` credential `fetchJson` turns into an `Authorization` header:
`{ authenticated: !!jwt, token: `Bearer ${jwt}` }` — note the template literal
stringifies an absent token as `"null"`. -/
structure Auth where
  authenticated : Bool
  token : String
  deriving Repr, DecidableEq

/-- The credential built by the inner `request()` from the currently stored
token. -/
def mkAuth (tok : Option String) : Auth :=
  { authenticated := tok.isSome, token := "Bearer " ++ tok.getD "null" }

/-- One outgoing request as handed to the underlying transport. -/
structure Request where
  url : String
  method : String
  dontRefreshToken : Bool
  auth : Auth
  deriving Repr, DecidableEq

/-- The provider configuration the token-aware client closes over.  `jwtExp`
models `jwtDecode(jwt).exp` (seconds since the epoch; `none` when the token
carries no `exp` claim); decoding is taken to be total, malformed tokens are
out of scope. -/
structure HttpConfig where
  loginUrl : String
  tokenExpirationThreshold : Int
  jwtExp : String → Option Int

/-- The token-renewal endpoint `${loginUrl}/:renew-token`. -/
def renewUrl (cfg : HttpConfig) : String :=
  cfg.loginUrl ++ "/:renew-token"

/-- The inner `request()`: read the stored token, attach the credential, hand
the request to the transport oracle `net`. -/
def requestM (net : Request → Except HttpE HttpResp) (store : Store)
    (url method : String) (dontRefreshToken : Bool) :
    Request × Except HttpE HttpResp :=
  let req : Request :=
    { url := url, method := method, dontRefreshToken := dontRefreshToken,
      auth := mkAuth store.token }
  (req, net req)

/-- The renewal guard of `httpClient`: a stored token, a call not marked
`dontRefreshToken`, a truthy decoded `exp` claim (`token.exp && ...` — JS
truthiness also skips a literal `0`), and `moment().isAfter` of the expiry
minus the threshold, i.e. strictly `now > (exp - threshold) * 1000`. -/
def needsRefresh (cfg : HttpConfig) (store : Store) (dontRefreshToken : Bool)
    (now : Int) : Bool :=
  match store.token with
  | some jwt =>
      if dontRefreshToken then false
      else
        match cfg.jwtExp jwt with
        | some exp =>
            decide (exp ≠ 0) && decide (now > (exp - cfg.tokenExpirationThreshold) * 1000)
        | none => false
  | none => false

/-- The token-aware `httpClient`, at a fixed current time `now` in
milliseconds, over a transport oracle `net`.  When the renewal guard fires,
the client first issues the renewal POST — itself a recursive `httpClient`
call marked `dontRefreshToken: true`, which therefore reduces to a direct
`request()` and carries the stored credential like any other call.  On renewal
success the new token (the response body) is stored and the original request is
then sent with it; on renewal failure a 401 clears the stored token and user,
and the renewal error is rejected without attempting the original request.
Returns the final store, the requests issued in order, and the settled result. -/
def httpClientM (cfg : HttpConfig) (net : Request → Except HttpE HttpResp)
    (now : Int) (store : Store) (url method : String) (dontRefreshToken : Bool) :
    Store × List Request × Except HttpE HttpResp :=
  if needsRefresh cfg store dontRefreshToken now then
    let (renewReq, renewRes) := requestM net store (renewUrl cfg) "POST" true
    match renewRes with
    | .ok resp =>
        let store2 : Store := { store with token := some resp.body }
        let (origReq, origRes) := requestM net store2 url method dontRefreshToken
        (store2, [renewReq, origReq], origRes)
    | .error e =>
        let store2 : Store :=
          if e.status = 401 then { token := none, user := none } else store
        (store2, [renewReq], .error e)
  else
    let (req, res) := requestM net store url method dontRefreshToken
    (store, [req], res)

/-- A request in the client's trace is a token-renewal call when it targets the
renewal endpoint. -/
def isRenewal (cfg : HttpConfig) (req : Request) : Bool :=
  req.url == renewUrl cfg

/-! ## Theorems -/

/-- C5: `toPlainJson` applied to `{name: {value: "Bob"}, __rowKey: "7"}`, a
record with no `id` field (for any metadata that does not type `name` as a
date kind), yields exactly `{name: "Bob", id: "7"}`: the row-key is promoted
to `id`, the `{value: ...}` envelope is stripped, and the `__rowKey` field is
removed from the output. -/
theorem toPlainJson_rowKey_promotion (ca : ClassAccessor)
    (h : ∀ prop, findProp ca "name" = some prop → isDateType prop.type = false) :
    toPlainJson ca [("name", .vObj [("value", .vStr "Bob")]), ("__rowKey", .vStr "7")]
      = .ok [("name", .vStr "Bob"), ("id", .vStr "7")] := by
  cases hfind : findProp ca "name" with
  | none =>
      simp [toPlainJson, objGet, objSet, objDelete, truthy, mapFieldsM, toPlainField,
            hasValueProp, getValueProp, hfind, Bind.bind, Except.bind, Pure.pure,
            Except.pure]
  | some prop =>
      have hd := h prop hfind
      simp [toPlainJson, objGet, objSet, objDelete, truthy, mapFieldsM, toPlainField,
            hasValueProp, getValueProp, hfind, hd, Bind.bind, Except.bind, Pure.pure,
            Except.pure]

/-- Witness for C5 at the empty metadata. -/
theorem toPlainJson_rowKey_promotion_witness :
    toPlainJson ⟨[]⟩ [("name", .vObj [("value", .vStr "Bob")]), ("__rowKey", .vStr "7")]
      = .ok [("name", .vStr "Bob"), ("id", .vStr "7")] :=
  toPlainJson_rowKey_promotion ⟨[]⟩ (fun prop hp => by simp [findProp] at hp)

/-- C8: for every requested id list, `deleteMany` against a legacy backend
whose response body is a number (a count) reports the entire originally
requested id set as deleted, while against a current backend whose response
body is an array of ids it reports exactly that array. -/
theorem deleteMany_generations (st : Store) (ids : List JsValue) (n : Int)
    (s₁ s₂ : Int) (b₁ b₂ : String) (hv₁ hv₂ : Bool) (xs : List JsValue) :
    (deleteManyM st ids (.ok ⟨s₁, b₁, .vNum n, hv₁⟩)).2 = .ok (.vArr ids)
      ∧ (deleteManyM st ids (.ok ⟨s₂, b₂, .vArr xs, hv₂⟩)).2 = .ok (.vArr xs) :=
  ⟨rfl, rfl⟩

/-- The legacy `updateMany` body inversion, element by element:
`ids.filter(id => json.indexOf(id) == -1)` over an array body computes the
requested ids minus the body's ids (under `===`). -/
theorem filterNotUpdated_arr (xs : List JsValue) (ids : List JsValue) :
    filterNotUpdated (.vArr xs) ids
      = .ok (ids.filter (fun i => !(xs.any (fun b => jsStrictEq b i)))) := by
  induction ids with
  | nil => rfl
  | cons i rest ih =>
      simp only [filterNotUpdated, jsNotInBody, ih, List.filter_cons, Except.bind,
        Bind.bind, Except.pure, pure]

/-- C7: for every requested id list, `updateMany` against a legacy backend
(response without the version-marker header) whose body is the array of ids
that were *not* updated returns the requested ids with that list removed (the
inverted set); against a current backend (version header present) it returns
the response body directly. -/
theorem updateMany_legacy_inversion (ca : ClassAccessor) (ids : List JsValue)
    (data d : JsObj) (hfu : forUpdate ca data = .ok d)
    (s₁ s₂ : Int) (b₁ b₂ : String) (body : List JsValue) (j : JsValue) :
    updateManyM ca ids data (.ok ⟨s₁, b₁, .vArr body, false⟩)
        = .ok (.vArr (ids.filter (fun i => !(body.any (fun b => jsStrictEq b i)))))
      ∧ updateManyM ca ids data (.ok ⟨s₂, b₂, j, true⟩) = .ok j := by
  constructor
  · simp [updateManyM, hfu, filterNotUpdated_arr]
  · simp [updateManyM, hfu]

/-- Witness for C7: requested `[1,2,3]`, legacy body `[2]` yields `[1,3]`;
a current response body is passed through. -/
theorem updateMany_legacy_inversion_witness :
    updateManyM ⟨[]⟩ [.vNum 1, .vNum 2, .vNum 3] [] (.ok ⟨200, "", .vArr [.vNum 2], false⟩)
        = .ok (.vArr [.vNum 1, .vNum 3])
      ∧ updateManyM ⟨[]⟩ [.vNum 1, .vNum 2, .vNum 3] [] (.ok ⟨200, "", .vArr [.vNum 1, .vNum 3], true⟩)
        = .ok (.vArr [.vNum 1, .vNum 3]) := by
  have h := updateMany_legacy_inversion ⟨[]⟩ [.vNum 1, .vNum 2, .vNum 3] [] [] rfl
    200 200 "" "" [.vNum 2] (.vArr [.vNum 1, .vNum 3])
  exact ⟨by rw [h.1]; rfl, h.2⟩

/-- C9: `delete` against a legacy backend returning the numeric count `1`
succeeds with the requested id and fails for any other count (the bare
`Promise.reject()` surfaces as the `TypeError` its own `catch` handler raises
reading `.status` of `undefined`); against a current backend returning an
array of deleted ids it succeeds with the array's first element; and a 409
response to `delete` or `deleteMany` is translated into a distinct
constraint-violation error carrying the backend's (non-empty) message, with
the stored session untouched. -/
theorem delete_generations_and_conflict (st : Store) (idv : JsValue)
    (ids : List JsValue) (n : Int) (x : JsValue) (xs : List JsValue)
    (s₁ s₂ s₃ : Int) (b₁ b₂ b₃ : String) (hv₁ hv₂ hv₃ : Bool) (e : HttpE) :
    deleteM st idv (.ok ⟨s₁, b₁, .vNum 1, hv₁⟩) = (st, .ok idv)
      ∧ (n ≠ 1 → deleteM st idv (.ok ⟨s₂, b₂, .vNum n, hv₂⟩) = (st, .error .typeErr))
      ∧ deleteM st idv (.ok ⟨s₃, b₃, .vArr (x :: xs), hv₃⟩) = (st, .ok x)
      ∧ (e.status = 409 → e.message ≠ "" →
          deleteM st idv (.error e) = (st, .error (.constraint e.message 409))
            ∧ deleteManyM st ids (.error e) = (st, .error (.constraint e.message 409))) := by
  refine ⟨rfl, fun hn => ?_, rfl, fun hs hm => ?_⟩
  · simp [deleteM, deleteCatch, hn]
  · constructor <;> simp [deleteM, deleteManyM, deleteCatch, hs, hm]

/-- Witness for C9: count 3 fails; a 409 with message "in use" becomes the
constraint-violation error on both `delete` and `deleteMany`. -/
theorem delete_generations_and_conflict_witness :
    deleteM ⟨some "T", some "U"⟩ (.vNum 5) (.ok ⟨200, "", .vNum 1, true⟩)
        = (⟨some "T", some "U"⟩, .ok (.vNum 5))
      ∧ deleteM ⟨some "T", some "U"⟩ (.vNum 5) (.ok ⟨200, "", .vNum 3, true⟩)
        = (⟨some "T", some "U"⟩, .error .typeErr)
      ∧ deleteM ⟨some "T", some "U"⟩ (.vNum 5) (.error ⟨409, "in use"⟩)
        = (⟨some "T", some "U"⟩, .error (.constraint "in use" 409))
      ∧ deleteManyM ⟨some "T", some "U"⟩ [.vNum 5] (.error ⟨409, "in use"⟩)
        = (⟨some "T", some "U"⟩, .error (.constraint "in use" 409)) := by
  have h := delete_generations_and_conflict ⟨some "T", some "U"⟩ (.vNum 5) [.vNum 5]
    3 (.vNum 9) [] 200 200 200 "" "" "" true true true ⟨409, "in use"⟩
  have h409 := h.2.2.2 rfl (by decide)
  exact ⟨h.1, h.2.1 (by decide), h409.1, h409.2⟩

/-- C6: for every field whose metadata type is a date/timestamp kind, decoding
the enveloped inbound value `1609459200000` with `toPlainJson` produces the
date value at epoch offset `1609459200000` milliseconds, and encoding that
date value back with `forUpdate` for a write reproduces exactly
`1609459200000` (decode-then-encode round-trip identity). -/
theorem date_roundtrip (ca : ClassAccessor) (p t : String)
    (hrk : p ≠ "__rowKey")
    (hfind : findProp ca p = some ⟨p, t⟩) (hdate : isDateType t = true) :
    toPlainJson ca [("id", .vNum 1), (p, .vObj [("value", .vNum 1609459200000)])]
        = .ok [("id", .vNum 1), (p, .vDate 1609459200000)]
      ∧ forUpdate ca [(p, .vDate 1609459200000)] = .ok [(p, .vNum 1609459200000)] := by
  constructor
  · simp [toPlainJson, objGet, objSet, objDelete, truthy, mapFieldsM, toPlainField,
          hasValueProp, getValueProp, hfind, hdate, newDate, hrk, Bind.bind,
          Except.bind, Pure.pure, Except.pure]
  · simp [forUpdate, mapFieldsM, forUpdateField, hfind, hdate, truthy, getTime,
          Bind.bind, Except.bind, Pure.pure, Except.pure]

/-- Witness for C6 at a `java.sql.Timestamp`-typed field named `when`. -/
theorem date_roundtrip_witness :
    toPlainJson ⟨[⟨"when", "java.sql.Timestamp"⟩]⟩
        [("id", .vNum 1), ("when", .vObj [("value", .vNum 1609459200000)])]
        = .ok [("id", .vNum 1), ("when", .vDate 1609459200000)]
      ∧ forUpdate ⟨[⟨"when", "java.sql.Timestamp"⟩]⟩ [("when", .vDate 1609459200000)]
        = .ok [("when", .vNum 1609459200000)] :=
  date_roundtrip ⟨[⟨"when", "java.sql.Timestamp"⟩]⟩ "when" "java.sql.Timestamp"
    (by decide) rfl rfl

/-- One-step unfolding of `load` at a singleton suffix (the `i == length - 1`
base case of the source). -/
theorem loadMany_single (fetch : JsValue → Except HttpE JsValue) (i : JsValue) :
    loadMany fetch [i]
      = ([i],
         match fetch i with
         | .ok r => .ok [r]
         | .error e => .error e) := rfl

/-- One-step unfolding of `load` at a non-final index: fetch, then chain the
rest of the ids on success only. -/
theorem loadMany_cons (fetch : JsValue → Except HttpE JsValue)
    (i j : JsValue) (rest : List JsValue) :
    loadMany fetch (i :: j :: rest)
      = match fetch i with
        | .error e => ([i], .error e)
        | .ok r =>
            let (trace, res) := loadMany fetch (j :: rest)
            (i :: trace,
             match res with
             | .ok rs => .ok (r :: rs)
             | .error e => .error e) := rfl

/-- `load` over an all-successful fetch returns the records in input order,
one fetch per id. -/
theorem loadMany_ok (fetch : JsValue → Except HttpE JsValue)
    (recs : JsValue → JsValue) :
    ∀ ids : List JsValue, (∀ i ∈ ids, fetch i = .ok (recs i)) →
      loadMany fetch ids = (ids, .ok (ids.map recs)) := by
  intro ids
  induction ids with
  | nil => intro _; rfl
  | cons i tl ih =>
      intro h
      have hi := h i (List.mem_cons_self i tl)
      have htl := ih (fun x hx => h x (List.mem_cons_of_mem i hx))
      cases tl with
      | nil => rw [loadMany_single fetch i, hi]; simp
      | cons j rest => rw [loadMany_cons fetch i j rest, hi, htl]; simp

/-- `load` stops at the first failing fetch and rejects with its error. -/
theorem loadMany_err (fetch : JsValue → Except HttpE JsValue)
    (recs : JsValue → JsValue) (e : HttpE) (bad : JsValue) :
    ∀ pre rest : List JsValue, (∀ i ∈ pre, fetch i = .ok (recs i)) →
      fetch bad = .error e →
      loadMany fetch (pre ++ bad :: rest) = (pre ++ [bad], .error e) := by
  intro pre
  induction pre with
  | nil =>
      intro rest _ hbad
      cases rest with
      | nil => simp [loadMany, hbad]
      | cons r rs => simp [loadMany, hbad]
  | cons p pre' ih =>
      intro rest h hbad
      have hp := h p (List.mem_cons_self p pre')
      have ihh := ih rest (fun x hx => h x (List.mem_cons_of_mem p hx)) hbad
      cases hcons : pre' ++ bad :: rest with
      | nil => exact absurd hcons (by simp)
      | cons q qs =>
          rw [List.cons_append, hcons, loadMany_cons fetch p q qs, hp, ← hcons, ihh]
          simp

/-- C4: `getMany` applied to an empty id list resolves to `{data: []}` without
issuing any network call; for every non-empty id list it issues one `getOne`
per id sequentially, returns the fetched records in the order of the input
ids, and fails the whole operation — not attempting the remaining ids — as
soon as any single fetch fails. -/
theorem getMany_sequential_order (fetch : JsValue → Except HttpE JsValue)
    (recs : JsValue → JsValue) (ids pre rest : List JsValue) (bad : JsValue)
    (e : HttpE) :
    getManyM fetch [] = ([], .ok [])
      ∧ ((∀ i ∈ ids, fetch i = .ok (recs i)) →
          getManyM fetch ids = (ids, .ok (ids.map recs)))
      ∧ ((∀ i ∈ pre, fetch i = .ok (recs i)) → fetch bad = .error e →
          getManyM fetch (pre ++ bad :: rest) = (pre ++ [bad], .error e)) := by
  refine ⟨rfl, fun h => ?_, fun h hbad => ?_⟩
  · cases ids with
    | nil => rfl
    | cons i tl => simp [getManyM, loadMany_ok fetch recs _ h]
  · have := loadMany_err fetch recs e bad pre rest h hbad
    simp [getManyM, this]

/-- Witness for C4: ids `[1,2,3]` fetch in order; a failure at `2` stops after
`[1,2]`. -/
theorem getMany_sequential_order_witness :
    getManyM (fun i => .ok (.vObj [("id", i)])) []= ([], .ok [])
      ∧ getManyM (fun i => .ok (.vObj [("id", i)])) [.vNum 1, .vNum 2, .vNum 3]
        = ([.vNum 1, .vNum 2, .vNum 3],
           .ok [.vObj [("id", .vNum 1)], .vObj [("id", .vNum 2)], .vObj [("id", .vNum 3)]])
      ∧ getManyM (fun i => if jsStrictEq i (.vNum 2) then .error ⟨500, "boom"⟩ else .ok (.vObj [("id", i)]))
          [.vNum 1, .vNum 2, .vNum 3]
        = ([.vNum 1, .vNum 2], .error ⟨500, "boom"⟩) := by
  have h1 := getMany_sequential_order (fun i => .ok (.vObj [("id", i)]))
    (fun i => .vObj [("id", i)]) [.vNum 1, .vNum 2, .vNum 3] [] [] (.vNum 0) ⟨500, "boom"⟩
  have h2 := getMany_sequential_order
    (fun i => if jsStrictEq i (.vNum 2) then .error ⟨500, "boom"⟩ else .ok (.vObj [("id", i)]))
    (fun i => .vObj [("id", i)]) [] [.vNum 1] [.vNum 3] (.vNum 2) ⟨500, "boom"⟩
  have hpre : ∀ i ∈ [JsValue.vNum 1],
      (fun i => if jsStrictEq i (.vNum 2) then (.error ⟨500, "boom"⟩ : Except HttpE JsValue)
                else .ok (.vObj [("id", i)])) i
        = .ok (.vObj [("id", i)]) := by
    intro i hi
    simp only [List.mem_singleton] at hi
    subst hi
    rfl
  have h3 := h2.2.2 hpre rfl
  exact ⟨h1.1, h1.2.1 (fun i hi => rfl), by simpa using h3⟩

/-- A `find?` hit is preserved by appending entries on the right. -/
theorem find?_append_some {α : Type} (p : α → Bool) (l l' : List α) (a : α)
    (h : l.find? p = some a) : (l ++ l').find? p = some a := by
  induction l with
  | nil => simp [List.find?] at h
  | cons x xs ih =>
      rw [List.cons_append]
      by_cases hx : p x
      · simp only [List.find?_cons_of_pos _ hx] at h ⊢; exact h
      · simp only [List.find?_cons_of_neg _ hx] at h ⊢; exact ih h

/-- `find?` on a right-extension of a missing key finds the new entry. -/
theorem find?_append_none {α : Type} (p : α → Bool) (l : List α) (a : α)
    (h : l.find? p = none) (ha : p a = true) : (l ++ [a]).find? p = some a := by
  induction l with
  | nil => simp [List.find?, ha]
  | cons x xs ih =>
      rw [List.cons_append]
      by_cases hx : p x
      · simp only [List.find?_cons_of_pos _ hx] at h; exact absurd h (by simp)
      · simp only [List.find?_cons_of_neg _ hx] at h ⊢; exact ih h

/-- Once a resource is cached, any further operation sequence issues no
discovery call for it and leaves its cached client untouched. -/
theorem runOps_cached (discover : String → Except HttpE ClassAccessor)
    (r : String) (pr : String × ClassAccessor) :
    ∀ (ops : List String) (st : ProviderState),
      st.resources.find? (fun e => e.1 == r) = some pr →
      ((runOps discover st ops).1.resources.find? (fun e => e.1 == r) = some pr
        ∧ (runOps discover st ops).2.count r = 0) := by
  intro ops
  induction ops with
  | nil => intro st h; exact ⟨h, rfl⟩
  | cons r' rest ih =>
      intro st h
      by_cases hr : r' = r
      · subst hr
        simp only [runOps, invokeDP, h]
        exact ih st h
      · simp only [runOps, invokeDP]
        cases hfind : st.resources.find? (fun e => e.1 == r') with
        | some pr' => simpa using ih st h
        | none =>
            cases hdisc : discover r' with
            | ok ca' =>
                have hpres : (ProviderState.mk (st.resources ++ [(r', ca')])).resources.find?
                    (fun e => e.1 == r) = some pr := find?_append_some _ _ _ _ h
                have := ih _ hpres
                simp only [List.count_cons, List.count_append]
                simpa [List.count_cons, hr, Ne.symm hr] using this
            | error e' =>
                have := ih st h
                simpa [List.count_cons, hr, Ne.symm hr] using this

/-- Before a resource is cached, a successful discovery means: the first
operation on it issues exactly one discovery call and caches the client built
from the discovered metadata; a sequence never touching it issues none. -/
theorem runOps_uncached (discover : String → Except HttpE ClassAccessor)
    (r : String) (ca : ClassAccessor) (hdisc : discover r = .ok ca) :
    ∀ (ops : List String) (st : ProviderState),
      st.resources.find? (fun e => e.1 == r) = none →
      (r ∈ ops →
        ((runOps discover st ops).1.resources.find? (fun e => e.1 == r) = some (r, ca)
          ∧ (runOps discover st ops).2.count r = 1))
      ∧ (r ∉ ops →
        ((runOps discover st ops).1.resources.find? (fun e => e.1 == r) = none
          ∧ (runOps discover st ops).2.count r = 0)) := by
  intro ops
  induction ops with
  | nil =>
      intro st h
      exact ⟨fun hmem => absurd hmem (List.not_mem_nil r), fun _ => ⟨h, rfl⟩⟩
  | cons r' rest ih =>
      intro st h
      by_cases hr : r' = r
      · subst hr
        simp only [runOps, invokeDP, h, hdisc]
        have hcached : (ProviderState.mk (st.resources ++ [(r', ca)])).resources.find?
            (fun e => e.1 == r') = some (r', ca) :=
          find?_append_none _ _ _ h (by simp)
        have hc := runOps_cached discover r' (r', ca) rest _ hcached
        constructor
        · intro _
          refine ⟨hc.1, ?_⟩
          simp [List.count_cons, hc.2]
        · intro hnmem
          exact absurd (List.mem_cons_self r' rest) hnmem
      · simp only [runOps, invokeDP]
        have hmemiff : r ∈ r' :: rest ↔ r ∈ rest := by
          simp [List.mem_cons, Ne.symm hr]
        cases hfind : st.resources.find? (fun e => e.1 == r') with
        | some pr' =>
            have := ih st h
            constructor
            · intro hmem
              have := this.1 (hmemiff.mp hmem)
              simpa using this
            · intro hnmem
              have := this.2 (fun hm => hnmem (hmemiff.mpr hm))
              simpa using this
        | none =>
            cases hdisc' : discover r' with
            | ok ca' =>
                have hnone : (ProviderState.mk (st.resources ++ [(r', ca')])).resources.find?
                    (fun e => e.1 == r) = none := by
                  rw [List.find?_append, h]
                  simp [Option.orElse, hr]
                have := ih _ hnone
                constructor
                · intro hmem
                  have hh := this.1 (hmemiff.mp hmem)
                  refine ⟨hh.1, ?_⟩
                  simp [List.count_cons, Ne.symm hr, hh.2]
                · intro hnmem
                  have hh := this.2 (fun hm => hnmem (hmemiff.mpr hm))
                  refine ⟨hh.1, ?_⟩
                  simp [List.count_cons, Ne.symm hr, hh.2]
            | error e' =>
                have := ih st h
                constructor
                · intro hmem
                  have hh := this.1 (hmemiff.mp hmem)
                  refine ⟨hh.1, ?_⟩
                  simp [List.count_cons, Ne.symm hr, hh.2]
                · intro hnmem
                  have hh := this.2 (fun hm => hnmem (hmemiff.mpr hm))
                  refine ⟨hh.1, ?_⟩
                  simp [List.count_cons, Ne.symm hr, hh.2]

/-- C2: for every resource name and every sequence of data-provider
operations starting from a fresh provider, assuming the resource's metadata
discovery succeeds, the whole sequence issues exactly one metadata-discovery
call for that resource when any operation targets it (the first one triggers
it) and zero otherwise, and afterwards the cache holds the `CrudResource`
built from the discovered `ClassAccessor`, reused by every subsequent
operation. -/
theorem resource_discovery_once (discover : String → Except HttpE ClassAccessor)
    (r : String) (ca : ClassAccessor) (ops : List String)
    (hdisc : discover r = .ok ca) :
    (runOps discover ⟨[]⟩ ops).2.count r = (if r ∈ ops then 1 else 0)
      ∧ (r ∈ ops →
          (runOps discover ⟨[]⟩ ops).1.resources.find? (fun e => e.1 == r)
            = some (r, ca)) := by
  have h := runOps_uncached discover r ca hdisc ops ⟨[]⟩ rfl
  by_cases hmem : r ∈ ops
  · have hh := h.1 hmem
    exact ⟨by simp [hmem, hh.2], fun _ => hh.1⟩
  · have hh := h.2 hmem
    exact ⟨by simp [hmem, hh.2], fun hm => absurd hm hmem⟩

/-- Witness for C2: operations `["posts", "posts", "users"]` issue one
discovery call for `posts` and cache its client. -/
theorem resource_discovery_once_witness :
    (runOps (fun s => .ok ⟨[⟨s, "java.lang.String"⟩]⟩) ⟨[]⟩
        ["posts", "posts", "users"]).2.count "posts" = 1
      ∧ (runOps (fun s => .ok ⟨[⟨s, "java.lang.String"⟩]⟩) ⟨[]⟩
          ["posts", "posts", "users"]).1.resources.find? (fun e => e.1 == "posts")
        = some ("posts", ⟨[⟨"posts", "java.lang.String"⟩]⟩) := by
  have h := resource_discovery_once (fun s => .ok ⟨[⟨s, "java.lang.String"⟩]⟩)
    "posts" ⟨[⟨"posts", "java.lang.String"⟩]⟩ ["posts", "posts", "users"] rfl
  refine ⟨?_, h.2 (by simp)⟩
  rw [h.1]
  simp

/-- C10 counterexample: the claim fails in both directions.  A record whose
`id` field is `null` (with a usable `__rowKey`) does *not* make `toPlainJson`
throw — the falsy `id` is overwritten by the row-key before the per-field
`hasOwnProperty` probe runs — so "any record containing a null/undefined field
throws" is false; and the record `{a: 1}`, all of whose field values are
non-null, *does* throw — the row-key promotion writes `id = undefined` when
both `id` and `__rowKey` are absent and the loop then probes that `undefined`
— so the claimed totality precondition is insufficient. -/
theorem toPlainJson_partiality_counterexample :
    toPlainJson ⟨[]⟩ [("id", .vNull), ("__rowKey", .vStr "7")] = .ok [("id", .vStr "7")]
      ∧ toPlainJson ⟨[]⟩ [("a", .vNum 1)] = .error .typeError := ⟨rfl, rfl⟩

/-- A nullish entry outside the `id`/`__rowKey` special cases survives the
row-key promotion step. -/
theorem mem_objSet_id_of_mem (obj : JsObj) (p : String) (v w : JsValue)
    (hmem : (p, v) ∈ obj) (hp : p ≠ "id") : (p, v) ∈ objSet obj "id" w := by
  unfold objSet
  by_cases hany : obj.any (fun e => e.1 == "id")
  · simp only [hany, if_true]
    refine List.mem_map.mpr ⟨(p, v), hmem, ?_⟩
    simp [hp]
  · simp only [hany, if_false]
    exact List.mem_append_left _ hmem

/-- Any entry of the promoted object is either the promoted row-key value or
an original entry. -/
theorem mem_objSet_id (obj : JsObj) (w : JsValue) (q : String) (u : JsValue)
    (hmem : (q, u) ∈ objSet obj "id" w) : u = w ∨ (q, u) ∈ obj := by
  unfold objSet at hmem
  by_cases hany : obj.any (fun e => e.1 == "id")
  · simp only [hany, if_true] at hmem
    obtain ⟨e, he, heq⟩ := List.mem_map.mp hmem
    by_cases h1 : e.1 == "id"
    · simp only [h1, if_pos] at heq
      exact Or.inl (by cases heq; rfl)
    · rw [if_neg h1] at heq
      exact Or.inr (heq ▸ he)
  · simp only [hany, if_false] at hmem
    rcases List.mem_append.mp hmem with h | h
    · exact Or.inr h
    · simp only [List.mem_singleton] at h
      exact Or.inl (by cases h; rfl)

/-- The per-field rewrite of `toPlainJson` throws exactly on nullish values. -/
theorem toPlainField_ok_of_not_nullish (ca : ClassAccessor) (p : String)
    (v : JsValue) (h : nullish v = false) : ∃ w, toPlainField ca p v = .ok w := by
  obtain ⟨b, hb⟩ : ∃ b, hasValueProp v = .ok b := by
    cases v <;> simp_all [nullish, hasValueProp]
  simp only [toPlainField, hb, Bind.bind, Except.bind]
  cases b with
  | false => exact ⟨v, by simp [Pure.pure, Except.pure]⟩
  | true =>
      cases hfp : findProp ca p with
      | none => exact ⟨getValueProp v, by simp [Pure.pure, Except.pure]⟩
      | some property =>
          by_cases hd : isDateType property.type = true
          · exact ⟨newDate (getValueProp v), by simp [hd, Pure.pure, Except.pure]⟩
          · exact ⟨getValueProp v, by simp [hd, Pure.pure, Except.pure]⟩

/-- The field loop succeeds when every value is non-nullish. -/
theorem mapFieldsM_ok (ca : ClassAccessor) :
    ∀ l : JsObj, (∀ p v, (p, v) ∈ l → nullish v = false) →
      ∃ res, mapFieldsM (toPlainField ca) l = .ok res := by
  intro l
  induction l with
  | nil => intro _; exact ⟨[], rfl⟩
  | cons e rest ih =>
      intro h
      obtain ⟨w, hw⟩ := toPlainField_ok_of_not_nullish ca e.1 e.2
        (h e.1 e.2 (by simp))
      obtain ⟨res, hres⟩ := ih (fun p v hpv => h p v (List.mem_cons_of_mem e hpv))
      exact ⟨(e.1, w) :: res, by
        simp [mapFieldsM, hw, hres, Bind.bind, Except.bind, Pure.pure, Except.pure]⟩

/-- The field loop throws as soon as some entry's value is nullish. -/
theorem mapFieldsM_error (ca : ClassAccessor) :
    ∀ l : JsObj, (∃ p v, (p, v) ∈ l ∧ nullish v = true) →
      mapFieldsM (toPlainField ca) l = .error .typeError := by
  intro l
  induction l with
  | nil => rintro ⟨p, v, hmem, _⟩; exact absurd hmem (List.not_mem_nil _)
  | cons e rest ih =>
      rintro ⟨p, v, hmem, hnull⟩
      rcases List.mem_cons.mp hmem with he | he
      · subst he
        have hthrow : toPlainField ca p v = .error .typeError := by
          cases v <;> simp_all [nullish, toPlainField, hasValueProp,
            Bind.bind, Except.bind]
        simp [mapFieldsM, hthrow, Bind.bind, Except.bind]
      · cases hfield : toPlainField ca e.1 e.2 with
        | error err =>
            have : err = .typeError := by cases err; rfl
            subst this
            simp [mapFieldsM, hfield, Bind.bind, Except.bind]
        | ok w =>
            have := ih ⟨p, v, he, hnull⟩
            simp [mapFieldsM, hfield, this, Bind.bind, Except.bind]

/-- C10 (amended): `toPlainJson` is partial at the public interface, but the
special fields take part in the pre-processing: any record containing a field
*other than `id` and `__rowKey`* whose value is `null`/`undefined` makes
`toPlainJson` throw a `TypeError` (so every read operation decoding such a
record fails), and `toPlainJson` is total under the precondition that every
field value is non-nullish *and* the record has a truthy `id` or a
non-nullish `__rowKey` (the promotion writes `id = undefined` otherwise,
which then throws). -/
theorem toPlainJson_partiality (ca : ClassAccessor) (obj : JsObj) :
    ((∃ p v, (p, v) ∈ obj ∧ p ≠ "id" ∧ p ≠ "__rowKey" ∧ nullish v = true) →
        toPlainJson ca obj = .error .typeError)
      ∧ ((∀ p v, (p, v) ∈ obj → nullish v = false) →
          (truthy (objGet obj "id") = true ∨ nullish (objGet obj "__rowKey") = false) →
          ∃ res, toPlainJson ca obj = .ok res) := by
  constructor
  · rintro ⟨p, v, hmem, hid, hrk, hnull⟩
    unfold toPlainJson
    apply mapFieldsM_error
    refine ⟨p, v, ?_, hnull⟩
    have h1 : (p, v) ∈ (if truthy (objGet obj "id") then obj
        else objSet obj "id" (objGet obj "__rowKey")) := by
      split
      · exact hmem
      · exact mem_objSet_id_of_mem obj p v _ hmem hid
    exact List.mem_filter.mpr ⟨h1, by simp [hrk]⟩
  · intro hvals hx
    unfold toPlainJson
    apply mapFieldsM_ok
    intro p v hmem
    have h2 := List.mem_filter.mp hmem
    have h1 : (p, v) ∈ (if truthy (objGet obj "id") then obj
        else objSet obj "id" (objGet obj "__rowKey")) := h2.1
    by_cases htr : truthy (objGet obj "id") = true
    · rw [if_pos htr] at h1
      exact hvals p v h1
    · rw [if_neg htr] at h1
      rcases mem_objSet_id obj _ p v h1 with h | h
      · subst h
        rcases hx with hx | hx
        · exact absurd hx htr
        · exact hx
      · exact hvals p v h

/-- Witness for C10 (amended): `{x: null, id: 1}` throws; `{id: 1, b: "s"}`
decodes fine. -/
theorem toPlainJson_partiality_witness :
    toPlainJson ⟨[]⟩ [("x", .vNull), ("id", .vNum 1)] = .error .typeError
      ∧ ∃ res, toPlainJson ⟨[]⟩ [("id", .vNum 1), ("b", .vStr "s")] = .ok res := by
  constructor
  · exact (toPlainJson_partiality ⟨[]⟩ [("x", .vNull), ("id", .vNum 1)]).1
      ⟨"x", .vNull, List.mem_cons_self _ _, by decide, by decide, rfl⟩
  · refine (toPlainJson_partiality ⟨[]⟩ [("id", .vNum 1), ("b", .vStr "s")]).2
      ?_ (Or.inl rfl)
    intro p v hmem
    rcases List.mem_cons.mp hmem with h | h
    · rw [show v = JsValue.vNum 1 from congrArg Prod.snd h]; rfl
    · rw [show v = JsValue.vStr "s" from congrArg Prod.snd (List.mem_singleton.mp h)]
      rfl

/-- The renewal guard fires when a token is stored whose nonzero decoded
expiry is (strictly) less than the threshold away from the current time. -/
theorem needsRefresh_true (cfg : HttpConfig) (store : Store) (now : Int)
    (jwt : String) (exp : Int) (h1 : store.token = some jwt)
    (h2 : cfg.jwtExp jwt = some exp) (h3 : exp ≠ 0)
    (h4 : exp * 1000 - now < cfg.tokenExpirationThreshold * 1000) :
    needsRefresh cfg store false now = true := by
  simp only [needsRefresh, h1, h2, if_false, Bool.ite_eq_true_distrib]
  simp [h3]
  omega

/-- The renewal guard stays quiet when the expiry is more than the threshold
away. -/
theorem needsRefresh_false_far (cfg : HttpConfig) (store : Store) (now : Int)
    (jwt : String) (exp : Int) (h1 : store.token = some jwt)
    (h2 : cfg.jwtExp jwt = some exp)
    (h4 : exp * 1000 - now > cfg.tokenExpirationThreshold * 1000) :
    needsRefresh cfg store false now = false := by
  have hlt : ¬(now > (exp - cfg.tokenExpirationThreshold) * 1000) := by omega
  simp [needsRefresh, h1, h2, hlt]

/-- The renewal guard stays quiet with no stored token. -/
theorem needsRefresh_false_none (cfg : HttpConfig) (store : Store) (now : Int)
    (h1 : store.token = none) : needsRefresh cfg store false now = false := by
  simp [needsRefresh, h1]

/-- C1 counterexample: a stored token whose decoded expiry is the epoch
instant `exp = 0` — with `now = 1000000` ms and the default 600 s threshold,
the expiry is less than the threshold away from the current time (it is in
the past), yet the client issues zero renewal calls, because the JS truthiness
guard `token.exp && ...` treats the expiry claim `0` as absent. -/
theorem httpClient_zeroExp_counterexample :
    ((0 : Int) * 1000 - 1000000 < 600 * 1000)
      ∧ ((httpClientM ⟨"L", 600, fun _ => some 0⟩
            (fun _ => .ok ⟨200, "T2", .vNull, false⟩) 1000000
            ⟨some "T", none⟩ "U" "GET" false).2.1.filter
              (isRenewal ⟨"L", 600, fun _ => some 0⟩)) = [] := by
  exact ⟨by decide, rfl⟩

/-- C1 (amended): for every call made through the token-aware `httpClient`
while a stored token's decoded expiry claim is present, *nonzero*, and less
than the configured threshold away from the current time, exactly one
token-renewal call is issued before the original call is sent; if the expiry
is more than the threshold away, or no token is stored, zero renewal calls
are issued; and if the renewal call fails, the original call is never
attempted and the renewal error propagates to the caller. -/
theorem httpClient_renewal_behavior (cfg : HttpConfig)
    (net : Request → Except HttpE HttpResp) (now : Int) (store : Store)
    (url method : String) (jwt : String) (exp : Int) (resp : HttpResp)
    (e : HttpE) :
    (store.token = some jwt → cfg.jwtExp jwt = some exp → exp ≠ 0 →
      exp * 1000 - now < cfg.tokenExpirationThreshold * 1000 →
      url ≠ renewUrl cfg →
      net ⟨renewUrl cfg, "POST", true, mkAuth (some jwt)⟩ = .ok resp →
      (httpClientM cfg net now store url method false).2.1
          = [⟨renewUrl cfg, "POST", true, mkAuth (some jwt)⟩,
             ⟨url, method, false, mkAuth (some resp.body)⟩]
        ∧ ((httpClientM cfg net now store url method false).2.1.filter
            (isRenewal cfg)).length = 1)
      ∧ ((store.token = none
            ∨ (store.token = some jwt ∧ cfg.jwtExp jwt = some exp
                ∧ exp * 1000 - now > cfg.tokenExpirationThreshold * 1000)) →
          (httpClientM cfg net now store url method false).2.1
              = [⟨url, method, false, mkAuth store.token⟩]
            ∧ (url ≠ renewUrl cfg →
                (httpClientM cfg net now store url method false).2.1.filter
                  (isRenewal cfg) = []))
      ∧ (store.token = some jwt → cfg.jwtExp jwt = some exp → exp ≠ 0 →
          exp * 1000 - now < cfg.tokenExpirationThreshold * 1000 →
          net ⟨renewUrl cfg, "POST", true, mkAuth (some jwt)⟩ = .error e →
          (httpClientM cfg net now store url method false).2
            = ([⟨renewUrl cfg, "POST", true, mkAuth (some jwt)⟩], .error e)) := by
  refine ⟨fun h1 h2 h3 h4 hurl hnet => ?_, fun hq => ?_, fun h1 h2 h3 h4 hnet => ?_⟩
  · have hnr := needsRefresh_true cfg store now jwt exp h1 h2 h3 h4
    have htr : (httpClientM cfg net now store url method false).2.1
        = [⟨renewUrl cfg, "POST", true, mkAuth (some jwt)⟩,
           ⟨url, method, false, mkAuth (some resp.body)⟩] := by
      simp only [httpClientM, hnr, if_true, requestM, h1, hnet]
    refine ⟨htr, ?_⟩
    rw [htr]
    simp [isRenewal, hurl]
  · have hnr : needsRefresh cfg store false now = false := by
      rcases hq with hn | ⟨hs, he, hfar⟩
      · exact needsRefresh_false_none cfg store now hn
      · exact needsRefresh_false_far cfg store now jwt exp hs he hfar
    have htr : (httpClientM cfg net now store url method false).2.1
        = [⟨url, method, false, mkAuth store.token⟩] := by
      simp [httpClientM, hnr, requestM]
    refine ⟨htr, fun hurl => ?_⟩
    rw [htr]
    simp [isRenewal, hurl]
  · have hnr := needsRefresh_true cfg store now jwt exp h1 h2 h3 h4
    simp only [httpClientM, hnr, if_true, requestM, h1, hnet]

/-- Witness for C1 at a token expiring at `exp = 2000` s with threshold 600 s:
at `now = 1500000` ms a renewal precedes the original call; at
`now = 1000000` ms no renewal happens; a failing renewal propagates without
the original call. -/
theorem httpClient_renewal_behavior_witness :
    (httpClientM ⟨"L", 600, fun _ => some 2000⟩
        (fun _ => .ok ⟨200, "T2", .vNull, false⟩) 1500000
        ⟨some "T", none⟩ "U" "GET" false).2.1
      = [⟨renewUrl ⟨"L", 600, fun _ => some 2000⟩, "POST", true, mkAuth (some "T")⟩,
         ⟨"U", "GET", false, mkAuth (some "T2")⟩]
      ∧ (httpClientM ⟨"L", 600, fun _ => some 2000⟩
          (fun _ => .ok ⟨200, "T2", .vNull, false⟩) 1000000
          ⟨some "T", none⟩ "U" "GET" false).2.1.filter
            (isRenewal ⟨"L", 600, fun _ => some 2000⟩) = []
      ∧ (httpClientM ⟨"L", 600, fun _ => some 2000⟩
          (fun _ => .error ⟨401, "expired"⟩) 1500000
          ⟨some "T", none⟩ "U" "GET" false).2
        = ([⟨renewUrl ⟨"L", 600, fun _ => some 2000⟩, "POST", true, mkAuth (some "T")⟩],
           .error ⟨401, "expired"⟩) := by
  refine ⟨?_, ?_, ?_⟩
  · exact ((httpClient_renewal_behavior ⟨"L", 600, fun _ => some 2000⟩
      (fun _ => .ok ⟨200, "T2", .vNull, false⟩) 1500000 ⟨some "T", none⟩ "U" "GET"
      "T" 2000 ⟨200, "T2", .vNull, false⟩ ⟨401, "expired"⟩).1
        rfl rfl (by decide) (by decide) (by decide) rfl).1
  · exact ((httpClient_renewal_behavior ⟨"L", 600, fun _ => some 2000⟩
      (fun _ => .ok ⟨200, "T2", .vNull, false⟩) 1000000 ⟨some "T", none⟩ "U" "GET"
      "T" 2000 ⟨200, "T2", .vNull, false⟩ ⟨401, "expired"⟩).2.1
        (Or.inr ⟨rfl, rfl, by decide⟩)).2 (by decide)
  · exact (httpClient_renewal_behavior ⟨"L", 600, fun _ => some 2000⟩
      (fun _ => .error ⟨401, "expired"⟩) 1500000 ⟨some "T", none⟩ "U" "GET"
      "T" 2000 ⟨200, "T2", .vNull, false⟩ ⟨401, "expired"⟩).2.2
        rfl rfl (by decide) (by decide) rfl

/-- C3 counterexample: in a renewal scenario (token "T" stored, expiring
within the threshold), the renewal call itself — the first request in the
trace, flagged by `isRenewal` — carries `authenticated: true` and
`Authorization: Bearer T`, contradicting "the token-renewal call carries no
token".  (The renewal goes through the same `request()` helper as every other
call; only the expiry check is skipped.) -/
theorem renewal_call_carries_token :
    (httpClientM ⟨"L", 600, fun _ => some 2000⟩
        (fun _ => .ok ⟨200, "T2", .vNull, false⟩) 1500000
        ⟨some "T", none⟩ "U" "GET" false).2.1.map
          (fun r => (isRenewal ⟨"L", 600, fun _ => some 2000⟩ r, r.auth))
      = [(true, ⟨true, "Bearer T"⟩), (false, ⟨true, "Bearer T2"⟩)] := rfl

/-- The trace of a token-aware call has one of three shapes: the original
request alone, a successful renewal followed by the original request under
the new token, or a failed renewal alone. -/
theorem httpClientM_trace_cases (cfg : HttpConfig)
    (net : Request → Except HttpE HttpResp) (now : Int) (store : Store)
    (url method : String) :
    (httpClientM cfg net now store url method false).2.1
        = [⟨url, method, false, mkAuth store.token⟩]
      ∨ (∃ resp, net ⟨renewUrl cfg, "POST", true, mkAuth store.token⟩ = .ok resp
          ∧ (httpClientM cfg net now store url method false).2.1
              = [⟨renewUrl cfg, "POST", true, mkAuth store.token⟩,
                 ⟨url, method, false, mkAuth (some resp.body)⟩])
      ∨ (httpClientM cfg net now store url method false).2.1
          = [⟨renewUrl cfg, "POST", true, mkAuth store.token⟩] := by
  by_cases hnr : needsRefresh cfg store false now
  · cases hnet : net ⟨renewUrl cfg, "POST", true, mkAuth store.token⟩ with
    | ok resp =>
        refine Or.inr (Or.inl ⟨resp, rfl, ?_⟩)
        simp [httpClientM, hnr, requestM, hnet]
    | error e =>
        refine Or.inr (Or.inr ?_)
        simp [httpClientM, hnr, requestM, hnet]
  · refine Or.inl ?_
    simp only [Bool.not_eq_true] at hnr
    simp [httpClientM, hnr, requestM]

/-- C3 (amended): every outgoing call made while a token is stored carries an
`Authorization: Bearer <token>` credential — *including* the token-renewal
call itself, which carries the token stored at the moment it is issued (the
original call after a successful renewal carries the renewed token). -/
theorem outgoing_calls_carry_token (cfg : HttpConfig)
    (net : Request → Except HttpE HttpResp) (now : Int) (store : Store)
    (url method : String) (t₀ : String) (h : store.token = some t₀) :
    ∀ req ∈ (httpClientM cfg net now store url method false).2.1,
      req.auth.authenticated = true ∧ ∃ t, req.auth.token = "Bearer " ++ t := by
  intro req hreq
  rcases httpClientM_trace_cases cfg net now store url method with
    hc | ⟨resp, _, hc⟩ | hc
  · rw [hc, List.mem_singleton] at hreq
    subst hreq
    exact ⟨by simp [mkAuth, h], ⟨t₀, by simp [mkAuth, h]⟩⟩
  · rw [hc] at hreq
    rcases List.mem_cons.mp hreq with hr | hr
    · subst hr
      exact ⟨by simp [mkAuth, h], ⟨t₀, by simp [mkAuth, h]⟩⟩
    · rw [List.mem_singleton] at hr
      subst hr
      exact ⟨by simp [mkAuth], ⟨resp.body, by simp [mkAuth]⟩⟩
  · rw [hc, List.mem_singleton] at hreq
    subst hreq
    exact ⟨by simp [mkAuth, h], ⟨t₀, by simp [mkAuth, h]⟩⟩

/-- Witness for C3 (amended): the one call issued with token "T" stored and
no expiry claim is authenticated with a Bearer credential. -/
theorem outgoing_calls_carry_token_witness :
    (Request.mk "U" "GET" false (mkAuth (some "T"))).auth.authenticated = true
      ∧ ∃ t, (Request.mk "U" "GET" false (mkAuth (some "T"))).auth.token
          = "Bearer " ++ t :=
  outgoing_calls_carry_token ⟨"L", 600, fun _ => none⟩
    (fun _ => .ok ⟨200, "", .vNull, false⟩) 0 ⟨some "T", none⟩ "U" "GET" "T" rfl
    ⟨"U", "GET", false, mkAuth (some "T")⟩ (List.mem_singleton.mpr rfl)

end Portofino

